import Mathlib

/-
Verification development for the core of hwy/nanobenchmark.cc (a
nanosecond-scale microbenchmark engine).

Modelling conventions, used throughout:

* `timer::Ticks`/`FuncInput`/`size_t` (all 64-bit unsigned in the measured
  configurations) are modelled as `Nat`, with an explicit reduction modulo
  `2 ^ 64` at every operation whose C++ counterpart can wrap
  (subtraction, the `(x + y + 1)` sums in the rounded averages, the
  `max_skip + min_duration - 1` sum in `NumSkip`, the `full.size() -
  num_skip` buffer size in `Measure`).  `uint32_t` quantities (the
  mt19937 words, the `omits` indices of `FillSubset` filled by
  `std::iota`, and the occurrence counter the copy loop compares against
  them) are reduced modulo `2 ^ 32` where the source performs the
  arithmetic.
* Allocation: `std::vector` construction with a requested size above
  `max_size()` is required to throw `length_error`; the subset buffer of
  `Measure`, whose size is computed by a wrapping size_t subtraction, is
  therefore modelled as failing when that size exceeds `vectorMaxSize`.
  Other allocations of the engine can only fail through resource
  exhaustion (`bad_alloc`), which is outside the model.
* The timer is an oracle: an execution is parametrised by a stream
  `deltas : Nat → Nat`, whose `k`-th value is the `Stop() - Start()`
  difference observed by the `k`-th timed region of the run.  A cursor
  into the stream is threaded through all definitions that time code.
  The function under test influences the model only through this stream
  (its return value is consumed by the elision barrier and its cost by
  the timer), so `func`/`arg` do not appear as model parameters.
* `double` quantities (`max_rel_mad`, `rel_mad`) are modelled as exact
  non-negative rationals, written as an explicit numerator/denominator
  pair `Frac`.  The only comparison the control flow performs on them is
  `rel_mad <= max_rel_mad` with `rel_mad = abs_mad / est`; for `est > 0`
  it is modelled exactly by cross-multiplication
  (`abs_mad * den ≤ num * est`), and when `est = 0` the IEEE quotient is
  `inf` or `nan` and the comparison is false, which the model reproduces
  by an explicit `est ≠ 0` guard.  The product
  `ticks_per_second * seconds_per_eval`, truncated to `size_t` in the
  source, is modelled as a single `Nat` parameter `ticks_per_eval`.
* `NANOBENCHMARK_CHECK` is defined in nanobenchmark.h, which is not part
  of the sources under verification; the specification (§7) describes the
  zero-estimate and empty-input checks as debug-mode assertions.  The
  embedding therefore takes a `checks : Bool` flag (modelling
  NANOBENCHMARK_ENABLE_CHECKS): when it is set, the two checks whose
  condition can actually be false abort the run (`Except.error`); the
  remaining checks restate facts proved below and are not modelled as
  control flow.
* `std::mt19937` is modelled in full (state initialisation from the
  default seed 5489, the twist and the tempering).  `std::shuffle` is
  modelled as the libstdc++ Fisher-Yates scheme (ascending pass, one
  generator draw per position, reduced by `%` to the required bound);
  the exact draw pattern of `std::shuffle` is implementation-defined in
  C++, and no theorem below depends on it beyond the result being a
  permutation.
-/

namespace Nanobench

/-- Equality of modelled run results is decidable (used only to state and
check concrete executions). -/
instance {ε α : Type} [DecidableEq ε] [DecidableEq α] : DecidableEq (Except ε α) :=
  fun a b =>
    match a, b with
    | .error e, .error f => decidable_of_iff (e = f) (by simp)
    | .ok x, .ok y => decidable_of_iff (x = y) (by simp)
    | .error _, .ok _ => isFalse (by simp)
    | .ok _, .error _ => isFalse (by simp)

/-- Wrapping 64-bit subtraction `a - b` on `Nat` representatives
(`timer::Ticks` must be unsigned to guarantee wraparound on overflow). -/
def wsub (a b : Nat) : Nat := (2 ^ 64 + a - b % 2 ^ 64) % 2 ^ 64

/-- The rounded averages `(x + y + 1) / 2` of ModeOfSorted and Median,
computed in uint64 arithmetic: the sum wraps before the halving. -/
def avg64 (x y : Nat) : Nat := ((x + y + 1) % 2 ^ 64) / 2

/-! ### robust_statistics::CountingSort -/

/-- One value of the frequency scan of CountingSort: `std::find_if` locates
the first pair whose key equals `v` and increments its count; a missing key
is appended at the end with count 1 (`unique.push_back`).  The source
counts in `int`; the `Nat` model is faithful below `2^31` occurrences per
value, far above the claimed array lengths. -/
def bump : List (Nat × Nat) → Nat → List (Nat × Nat)
  | [], v => [(v, 1)]
  | (u, c) :: rest, v =>
      if u = v then (u, c + 1) :: rest else (u, c) :: bump rest v

/-- The `unique` vector of CountingSort after the input scan. -/
def buildUnique (values : List Nat) : List (Nat × Nat) := values.foldl bump []

/-- Order used by `std::sort` on the `{value, count}` pairs.  `std::pair`
compares lexicographically; `buildUnique` produces pairwise distinct keys,
so ordering by the key alone yields the same sorted sequence. -/
def keyLe (a b : Nat × Nat) : Prop := a.1 ≤ b.1

instance : DecidableRel keyLe := fun a b => inferInstanceAs (Decidable (a.1 ≤ b.1))

instance : IsTotal (Nat × Nat) keyLe := ⟨fun a b => Nat.le_total a.1 b.1⟩

instance : IsTrans (Nat × Nat) keyLe := ⟨fun _ _ _ h₁ h₂ => Nat.le_trans h₁ h₂⟩

/-- robust_statistics::CountingSort: tally each unique value, sort the
pairs, then expand `count` copies of each value (`std::fill`). -/
def CountingSort (values : List Nat) : List Nat :=
  (List.insertionSort keyLe (buildUnique values)).flatMap fun vc =>
    List.replicate vc.2 vc.1

/-! ### robust_statistics::MinRange / ModeOfSorted / Mode -/

/-- `sorted[idx + half_count] - sorted[idx]`, the uint64 width of one
candidate range (out-of-range reads are modelled by the default 0; the
in-bounds invariant is proved separately). -/
def rangeAt (sorted : List Nat) (half_count idx : Nat) : Nat :=
  wsub (sorted.getD (idx + half_count) 0) (sorted.getD idx 0)

/-- The scan loop of MinRange: `k` iterations remain, `mr`/`mi` carry
`min_range` and `min_idx`.  `min_range` starts at
`std::numeric_limits<uint64_t>::max()` and `min_idx` at 0. -/
def minRangeAux (sorted : List Nat) (half_count : Nat) :
    Nat → Nat → Nat → Nat → Nat × Nat
  | _, 0, mr, mi => (mr, mi)
  | idx, k + 1, mr, mi =>
      if rangeAt sorted half_count idx < mr then
        minRangeAux sorted half_count (idx + 1) k (rangeAt sorted half_count idx) idx
      else
        minRangeAux sorted half_count (idx + 1) k mr mi

/-- robust_statistics::MinRange. -/
def MinRange (sorted : List Nat) (idx_begin half_count : Nat) : Nat :=
  (minRangeAux sorted half_count idx_begin half_count (2 ^ 64 - 1) 0).2

/-- The `while (half_count > 1)` loop of ModeOfSorted, written with a fuel
argument to make the recursion structural.  Each iteration halves
`half_count`, so any fuel `≥ half_count` makes the function agree with the
source loop: with fuel `f + 1` and `half_count ≤ f + 1`, the recursive call
has `half_count / 2 ≤ f`; fuel 0 forces `half_count = 0`, for which the
loop would exit anyway. -/
def modeLoopF (sorted : List Nat) : Nat → Nat → Nat → Nat × Nat
  | 0, idx_begin, half_count => (idx_begin, half_count)
  | fuel + 1, idx_begin, half_count =>
      if 1 < half_count then
        modeLoopF sorted fuel (MinRange sorted idx_begin half_count) (half_count / 2)
      else (idx_begin, half_count)

/-- The ModeOfSorted loop entered at `(idx_begin, half_count)`. -/
def modeLoop (sorted : List Nat) (idx_begin half_count : Nat) : Nat × Nat :=
  modeLoopF sorted half_count idx_begin half_count

/-- The `(idx_begin, half_count)` pairs at which the ModeOfSorted loop body
invokes MinRange (instrumentation of `modeLoop`; same recursion). -/
def modeLoopCalls (sorted : List Nat) : Nat → Nat → Nat → List (Nat × Nat)
  | 0, _, _ => []
  | fuel + 1, idx_begin, half_count =>
      if 1 < half_count then
        (idx_begin, half_count) ::
          modeLoopCalls sorted fuel (MinRange sorted idx_begin half_count) (half_count / 2)
      else []

/-- robust_statistics::ModeOfSorted (the Half Sample Mode estimator). -/
def ModeOfSorted (sorted : List Nat) (num_values : Nat) : Nat :=
  let p := modeLoop sorted 0 (num_values / 2)
  let x := sorted.getD p.1 0
  if p.2 = 0 then x else avg64 x (sorted.getD (p.1 + 1) 0)

/-- robust_statistics::Mode: CountingSort then ModeOfSorted. -/
def Mode (values : List Nat) : Nat :=
  ModeOfSorted (CountingSort values) values.length

/-! ### robust_statistics::Median / MedianAbsoluteDeviation -/

/-- robust_statistics::Median.  `std::sort` is modelled by
`List.insertionSort (· ≤ ·)`: on a totally ordered type every correct
ascending sort produces the same list.  The even case is the uint64
rounded average of the two middle elements.  On an empty array the source
would read out of bounds (`values[half - 1]` with `half = 0`); the model's
total `getD`/truncated subtraction make that case defined but it is never
relied on (all callers pass non-empty arrays). -/
def Median (values : List Nat) : Nat :=
  let s := List.insertionSort (· ≤ ·) values
  let half := values.length / 2
  if values.length % 2 = 1 then s.getD half 0
  else avg64 (s.getD half 0) (s.getD (half - 1) 0)

/-- The int64 view of a uint64 representative (the source converts both
operands with `int64_t(...)` before subtracting). -/
def toInt64 (x : Nat) : Int :=
  (x % 2 ^ 64 : Nat) - (if x % 2 ^ 64 < 2 ^ 63 then 0 else (2 ^ 64 : Int))

/-- `static_cast<T>(std::abs(int64_t(v) - int64_t(m)))`: exact integer
absolute difference of the int64 views, cast back to uint64. -/
def absDev (v m : Nat) : Nat := (toInt64 v - toInt64 m).natAbs % 2 ^ 64

/-- robust_statistics::MedianAbsoluteDeviation. -/
def MedianAbsoluteDeviation (values : List Nat) (med : Nat) : Nat :=
  Median (values.map fun v => absDev v med)

/-! ### std::mt19937 and std::shuffle -/

/-- State initialisation of mt19937 from the previous word: 623 further
words of `x[i] = 1812433253 * (x[i-1] ^ (x[i-1] >> 30)) + i (mod 2^32)`. -/
def mtInitAux : Nat → Nat → Nat → List Nat
  | _, _, 0 => []
  | prev, i, k + 1 =>
      let cur := (1812433253 * (prev ^^^ (prev >>> 30)) + i) % 2 ^ 32
      cur :: mtInitAux cur (i + 1) k

/-- The 624-word mt19937 state seeded with `seed`. -/
def mtInit (seed : Nat) : List Nat := (seed % 2 ^ 32) :: mtInitAux (seed % 2 ^ 32) 1 623

/-- The mt19937 twist, regenerating all 624 words in place (later words of
the same pass read already-regenerated earlier words, as in the standard
generation algorithm). -/
def mtTwist (x : List Nat) : List Nat :=
  (List.range 624).foldl
    (fun a i =>
      let y := (a.getD i 0 &&& 0x80000000) ||| (a.getD ((i + 1) % 624) 0 &&& 0x7fffffff)
      let xA := (y >>> 1) ^^^ (if y % 2 = 1 then 0x9908b0df else 0)
      a.set i ((a.getD ((i + 397) % 624) 0) ^^^ xA))
    x

/-- The mt19937 tempering transform. -/
def mtTemper (y0 : Nat) : Nat :=
  let y1 := y0 ^^^ (y0 >>> 11)
  let y2 := y1 ^^^ ((y1 <<< 7) &&& 0x9d2c5680)
  let y3 := y2 ^^^ ((y2 <<< 15) &&& 0xefc60000)
  y3 ^^^ (y3 >>> 18)

/-- A mt19937 engine: the word array and the index of the next word. -/
structure MT where
  state : List Nat
  idx : Nat

/-- `std::mt19937 rng;` — default construction seeds with 5489 and marks
the state as fully consumed, so the first draw twists. -/
def mt19937Default : MT := ⟨mtInit 5489, 624⟩

/-- One draw from the engine. -/
def mtNext (g : MT) : Nat × MT :=
  if 624 ≤ g.idx then
    let st := mtTwist g.state
    (mtTemper (st.getD 0 0), ⟨st, 1⟩)
  else (mtTemper (g.state.getD g.idx 0), ⟨g.state, g.idx + 1⟩)

/-- `std::iter_swap` of positions `i` and `j` of a vector (total: an
out-of-range index leaves the list unchanged via `List.set`). -/
def swapL (l : List Nat) (i j : Nat) : List Nat :=
  (l.set i (l.getD j 0)).set j (l.getD i 0)

/-- `std::shuffle(v.begin(), v.end(), g)`, libstdc++ scheme: for each `i`
from 1 to `n - 1` swap `v[i]` with `v[d]` for a draw `d ∈ [0, i]`.  The
mapping from raw generator output to the bounded draw is
implementation-defined; it is modelled as `% (i + 1)`. -/
def stdShuffle (l : List Nat) (g0 : MT) : List Nat :=
  (((List.range l.length).drop 1).foldl
    (fun st i =>
      let rg := mtNext st.2
      (swapL st.1 i (rg.1 % (i + 1)), rg.2))
    (l, g0)).1

/-! ### Input planner: UniqueInputs, ReplicateInputs, FillSubset -/

/-- `std::unique` on an ascending-sorted vector: drop consecutive
duplicates. -/
def dedupSorted : List Nat → List Nat
  | [] => []
  | [a] => [a]
  | a :: b :: rest =>
      if a = b then dedupSorted (b :: rest) else a :: dedupSorted (b :: rest)

/-- UniqueInputs: sort ascending, then erase consecutive duplicates. -/
def UniqueInputs (inputs : List Nat) : List Nat :=
  dedupSorted (List.insertionSort (· ≤ ·) inputs)

/-- An exact non-negative rational `num / den`, the model of the `double`
tolerances (`0.0` is `⟨0, 1⟩`, `0.01` is `⟨1, 100⟩`).  A zero denominator
plays the role of IEEE `inf` (every finite quotient compares below it). -/
structure Frac where
  num : Nat
  den : Nat

/-- Configuration record.  `ticks_per_eval` models the truncated product
`ticks_per_second * seconds_per_eval` of the source; `timer_resolution`
models the process-wide static `timer_resolution`; `target_rel_mad` is the
double tolerance as an exact rational.  `verbose` only controls printing
and is omitted. -/
structure Params where
  ticks_per_eval : Nat
  min_samples_per_eval : Nat
  min_mode_samples : Nat
  max_evals : Nat
  target_rel_mad : Frac
  precision_divisor : Nat
  subset_ratio : Nat
  timer_resolution : Nat

/-- ReplicateInputs: a single unique input is replicated
`subset_ratio * num_skip` times without shuffling; otherwise
`subset_ratio * num_skip` copies of the whole input sequence are
concatenated and then permuted by `std::shuffle` with a freshly
default-constructed mt19937. -/
def ReplicateInputs (inputs : List Nat) (num_unique num_skip : Nat) (p : Params) :
    List Nat :=
  if num_unique = 1 then List.replicate (p.subset_ratio * num_skip) (inputs.getD 0 0)
  else stdShuffle ((List.replicate (p.subset_ratio * num_skip) inputs).flatten) mt19937Default

/-- A second spelling of the generator used by ReplicateInputs, with the
seed explicit: default construction of `std::mt19937` always uses the
fixed `default_seed` 5489. -/
def replicateInputsSeeded (seed : Nat) (inputs : List Nat) (num_unique num_skip : Nat)
    (p : Params) : List Nat :=
  if num_unique = 1 then List.replicate (p.subset_ratio * num_skip) (inputs.getD 0 0)
  else stdShuffle ((List.replicate (p.subset_ratio * num_skip) inputs).flatten) ⟨mtInit seed, 624⟩

/-- The copying loop of FillSubset.  `omits` is the not-yet-consumed tail of
the sorted omits vector (`idx_omit < num_skip` in the source corresponds to
`omits ≠ []`), `occ` counts the occurrences of `input_to_skip` seen so far.
The source keeps the counter in a pre-incremented `uint32_t` starting at
`~0u` (so the comparison sees `occ` reduced modulo `2 ^ 32`) and compares
it against the `uint32_t` omit entries; the comparison is therefore
modelled as `occ % 2 ^ 32 = o`. -/
def fillLoop (input_to_skip : Nat) : List Nat → List Nat → Nat → List Nat
  | [], _, _ => []
  | next :: rest, omits, occ =>
      if next = input_to_skip then
        match omits with
        | o :: os =>
            if occ % 2 ^ 32 = o then fillLoop input_to_skip rest os (occ + 1)
            else next :: fillLoop input_to_skip rest (o :: os) (occ + 1)
        | [] => next :: fillLoop input_to_skip rest [] (occ + 1)
      else next :: fillLoop input_to_skip rest omits occ

/-- FillSubset: count the occurrences of `input_to_skip`, fill a
`vector<uint32_t>` with `iota(count)` (each index reduced modulo `2 ^ 32`,
as `std::iota`'s increment wraps in uint32), shuffle it with a freshly
default-constructed mt19937, keep the first `num_skip` entries
(`omits.resize`), sort them, then copy `full` skipping the selected
occurrences.  Writes land in the caller-provided `subset` buffer from
position 0 on, stopping at its end; positions beyond the last write keep
their previous contents. -/
def FillSubset (full : List Nat) (input_to_skip num_skip : Nat) (subset : List Nat) :
    List Nat :=
  let count := full.count input_to_skip
  let omits := List.insertionSort (· ≤ ·)
    ((stdShuffle ((List.range count).map (· % 2 ^ 32)) mt19937Default).take num_skip)
  let kept := fillLoop input_to_skip full omits 0
  kept.take subset.length ++ subset.drop kept.length

/-! ### SampleUntilStable -/

/-- `(timer_resolution + 99) / 100`, the absolute MAD floor. -/
def maxAbsMad (p : Params) : Nat := (p.timer_resolution + 99) / 100

/-- The evaluation loop of SampleUntilStable.  Arguments: remaining
evaluations, `samples_per_eval`, the delta-stream cursor, the collected
samples, and the current estimate (returned unchanged if the rounds are
exhausted).  A round appends `samples_per_eval` fresh timings, recomputes
the central estimate (Mode once `min_mode_samples` samples exist, Median
before that), and returns it if the relative MAD meets the tolerance or
the absolute MAD is below the resolution floor; the `est != 0` check
aborts when `checks` is set. -/
def susLoop (checks : Bool) (max_rel_mad : Frac) (p : Params) (deltas : Nat → Nat) :
    Nat → Nat → Nat → List Nat → Nat → Except Unit (Nat × Nat)
  | 0, _, cur, _, est => .ok (est, cur)
  | evalsLeft + 1, spe, cur, samples0, _ =>
      let samples := samples0 ++ (List.range spe).map fun j => deltas (cur + j) % 2 ^ 64
      let est := if p.min_mode_samples ≤ samples.length then Mode samples else Median samples
      if checks ∧ est = 0 then .error ()
      else
        let abs_mad := MedianAbsoluteDeviation samples est
        if (est ≠ 0 ∧ abs_mad * max_rel_mad.den ≤ max_rel_mad.num * est) ∨
            abs_mad ≤ maxAbsMad p then
          .ok (est, cur + spe)
        else susLoop checks max_rel_mad p deltas evalsLeft (spe * 2) (cur + spe) samples est

/-- SampleUntilStable.  The initial timed call seeds the estimate and the
sample vector, and sizes the first round; the result pairs the returned
estimate with the delta-stream cursor after the call.  The `rel_mad`
out-parameter is not part of the result: no verified claim depends on it. -/
def SampleUntilStable (checks : Bool) (max_rel_mad : Frac) (p : Params)
    (deltas : Nat → Nat) (cur : Nat) : Except Unit (Nat × Nat) :=
  let est := deltas cur % 2 ^ 64
  let spe0 := if est = 0 then p.min_samples_per_eval else p.ticks_per_eval / est
  susLoop checks max_rel_mad p deltas p.max_evals (max spe0 p.min_samples_per_eval)
    (cur + 1) [est] est

/-! ### NumSkip, Measure -/

/-- The per-unique-input loop of NumSkip: one SampleUntilStable call per
unique input, folding `min_duration = min(min_duration, total -
timer_resolution)` (wrapping uint64 subtraction). -/
def numSkipLoop (checks : Bool) (p : Params) (deltas : Nat → Nat) :
    List Nat → Nat → Nat → Except Unit (Nat × Nat)
  | [], cur, min_duration => .ok (min_duration, cur)
  | _ :: rest, cur, min_duration =>
      match SampleUntilStable checks p.target_rel_mad p deltas cur with
      | .error e => .error e
      | .ok tc =>
          numSkipLoop checks p deltas rest tc.2
            (min min_duration (wsub tc.1 p.timer_resolution))

/-- NumSkip.  `min_duration` starts at `~Ticks(0) = 2^64 - 1`; the result
is `ceil(precision_divisor / min_duration)` computed as
`(max_skip + min_duration - 1) / min_duration` in wrapping size_t
arithmetic, or 0 when `min_duration = 0`. -/
def NumSkip (checks : Bool) (p : Params) (deltas : Nat → Nat) (unique : List Nat)
    (cur : Nat) : Except Unit (Nat × Nat) :=
  match numSkipLoop checks p deltas unique cur (2 ^ 64 - 1) with
  | .error e => .error e
  | .ok mc =>
      .ok (if mc.1 = 0 then 0
           else ((p.precision_divisor % 2 ^ 64 + mc.1 - 1) % 2 ^ 64) / mc.1, mc.2)

/-- One written `results[i]` entry.  The source stores
`float(duration) * (1.0f / float(int(num_skip)))` and the float
`variability`; the model records the input and the pre-scaling uint64
`duration` — no verified claim depends on the float conversions. -/
structure MEntry where
  input : Nat
  duration : Nat
  deriving DecidableEq

/-- The per-unique-input measurement loop of Measure.  For each remaining
unique input: FillSubset into the subset buffer, time the subset
(TotalDuration is SampleUntilStable over the summed closure), fail with
return value 0 on `total < total_skip` — keeping the entries already
written — otherwise append `results[i]` and continue.  The third result
component instruments the index at which the total-inversion check fired
(the number of entries written before the failure). -/
def measureLoop (checks : Bool) (p : Params) (deltas : Nat → Nat) (full : List Nat)
    (uq num_skip total overhead overhead_skip : Nat) :
    List Nat → Nat → List Nat → List MEntry →
      Except Unit (Nat × List MEntry × Option Nat)
  | [], _, _, acc => .ok (uq, acc, none)
  | u :: rest, cur, subset, acc =>
      let subset2 := FillSubset full u num_skip subset
      match SampleUntilStable checks p.target_rel_mad p deltas cur with
      | .error e => .error e
      | .ok tc =>
          if total < tc.1 then .ok (0, acc, some acc.length)
          else
            measureLoop checks p deltas full uq num_skip total overhead overhead_skip
              rest tc.2 subset2
              (acc ++ [⟨u, wsub (wsub total overhead) (wsub tc.1 overhead_skip)⟩])

/-- `std::vector<uint64_t>::max_size()`: `vector(n)` with `n > max_size()`
is required to throw `length_error`.  The exact value is
implementation-defined; mainstream 64-bit implementations are bounded by
`PTRDIFF_MAX / sizeof(uint64_t) = 2^60 - 1` or less, and every theorem
below depends only on `2^64 - 1` exceeding the bound. -/
def vectorMaxSize : Nat := 2 ^ 60 - 1

/-- Measure.  Returns the number of populated `results` entries together
with the written entries (in order) and the instrumented total-inversion
index.  The empty-input check aborts only when `checks` is set; the
overhead-inversion and total-inversion failures return 0.  The subset
buffer is allocated with `full.size() - num_skip` elements in wrapping
size_t arithmetic, zero-initialised; a requested size above
`vectorMaxSize` makes the allocation throw `length_error`, modelled as an
error result. -/
def Measure (checks : Bool) (p : Params) (deltas : Nat → Nat) (inputs : List Nat) :
    Except Unit (Nat × List MEntry × Option Nat) :=
  if checks ∧ inputs.length = 0 then .error ()
  else
    let unique := UniqueInputs inputs
    match NumSkip checks p deltas unique 0 with
    | .error e => .error e
    | .ok nc =>
        if nc.1 = 0 then .ok (0, [], none)
        else
          let full := ReplicateInputs inputs unique.length nc.1 p
          if vectorMaxSize < (2 ^ 64 + full.length - nc.1) % 2 ^ 64 then .error ()
          else
          let subset0 := List.replicate ((2 ^ 64 + full.length - nc.1) % 2 ^ 64) 0
          match SampleUntilStable checks ⟨0, 1⟩ p deltas nc.2 with
          | .error e => .error e
          | .ok oc =>
              match SampleUntilStable checks ⟨0, 1⟩ p deltas oc.2 with
              | .error e => .error e
              | .ok osc =>
                  if oc.1 < osc.1 then .ok (0, [], none)
                  else
                    match SampleUntilStable checks p.target_rel_mad p deltas osc.2 with
                    | .error e => .error e
                    | .ok tc =>
                        measureLoop checks p deltas full unique.length nc.1 tc.1 oc.1
                          osc.1 unique tc.2 subset0 []

/-! ## Shared helper lemmas -/

theorem getD_mem_of_lt {l : List Nat} {i : Nat} (h : i < l.length) : l.getD i 0 ∈ l := by
  rw [List.getD_eq_getElem l 0 h]
  exact List.getElem_mem h

/-- Exactness of the wrapping subtraction on in-range, ordered operands. -/
theorem wsub_exact {a b : Nat} (hba : b ≤ a) (ha : a < 2 ^ 64) : wsub a b = a - b := by
  unfold wsub
  rw [Nat.mod_eq_of_lt (Nat.lt_of_le_of_lt hba ha)]
  have h1 : 2 ^ 64 + a - b = 2 ^ 64 + (a - b) := by omega
  rw [h1, Nat.add_mod_left]
  exact Nat.mod_eq_of_lt (by omega)

/-- Exactness and bounds of the uint64 rounded average on small operands. -/
theorem avg64_between {x y : Nat} (hxy : x ≤ y) (hy : y < 2 ^ 63) :
    x ≤ avg64 x y ∧ avg64 x y ≤ y := by
  have hlt : x + y + 1 < 2 ^ 64 := by
    have : (2 : Nat) ^ 63 + 2 ^ 63 = 2 ^ 64 := by norm_num
    omega
  unfold avg64
  rw [Nat.mod_eq_of_lt hlt]
  constructor
  · have h2 : 2 * x ≤ x + y + 1 := by omega
    calc x = 2 * x / 2 := by omega
    _ ≤ (x + y + 1) / 2 := Nat.div_le_div_right h2
  · have h2 : x + y + 1 ≤ 2 * y + 1 := by omega
    calc (x + y + 1) / 2 ≤ (2 * y + 1) / 2 := Nat.div_le_div_right h2
    _ = y := by omega

/-- Monotonicity of indexed access in an ascending-sorted list. -/
theorem sorted_getD_le {l : List Nat} (hs : l.Sorted (· ≤ ·)) {a b : Nat}
    (hab : a ≤ b) (hbl : b < l.length) : l.getD a 0 ≤ l.getD b 0 := by
  have hal : a < l.length := Nat.lt_of_le_of_lt hab hbl
  rw [List.getD_eq_getElem l 0 hal, List.getD_eq_getElem l 0 hbl]
  rcases Nat.lt_or_ge a b with hlt | hge
  · exact hs.rel_get_of_lt (a := ⟨a, hal⟩) (b := ⟨b, hbl⟩) hlt
  · have : a = b := Nat.le_antisymm hab hge
    subst this
    exact Nat.le_refl _

/-- In an ascending-sorted list, any element is bounded below by the first
element and above by the last. -/
theorem sorted_getD_bounds {l : List Nat} (hs : l.Sorted (· ≤ ·)) {i : Nat}
    (h : i < l.length) :
    l.getD 0 0 ≤ l.getD i 0 ∧ l.getD i 0 ≤ l.getD (l.length - 1) 0 := by
  have hrel : ∀ (a b : Nat) (ha : a < l.length) (hb : b < l.length), a ≤ b →
      l.getD a 0 ≤ l.getD b 0 := by
    intro a b ha hb hab
    rw [List.getD_eq_getElem l 0 ha, List.getD_eq_getElem l 0 hb]
    rcases Nat.lt_or_ge a b with hlt | hge
    · exact hs.rel_get_of_lt (a := ⟨a, ha⟩) (b := ⟨b, hb⟩) hlt
    · have : a = b := Nat.le_antisymm hab hge
      subst this
      exact Nat.le_refl _
  exact ⟨hrel 0 i (Nat.lt_of_le_of_lt (Nat.zero_le i) h) h (Nat.zero_le i),
    hrel i (l.length - 1) h (by omega) (by omega)⟩

/-- Two consecutive elements of an ascending-sorted list are ordered. -/
theorem sorted_getD_adjacent {l : List Nat} (hs : l.Sorted (· ≤ ·)) {i : Nat}
    (h : i + 1 < l.length) : l.getD i 0 ≤ l.getD (i + 1) 0 := by
  rw [List.getD_eq_getElem l 0 (by omega), List.getD_eq_getElem l 0 h]
  exact hs.rel_get_of_lt (a := ⟨i, by omega⟩) (b := ⟨i + 1, h⟩) (by simp)

/-! ## CountingSort lemmas (claim C6) -/

theorem bump_keysum (v : Nat) :
    ∀ (ps : List (Nat × Nat)) (w : Nat),
      ((bump ps w).map fun p => if p.1 = v then p.2 else 0).sum =
        ((ps.map fun p => if p.1 = v then p.2 else 0).sum) + (if w = v then 1 else 0) := by
  intro ps
  induction ps with
  | nil => intro w; simp [bump]
  | cons hd tl ih =>
      intro w
      obtain ⟨u, c⟩ := hd
      by_cases huw : u = w
      · subst huw
        simp only [bump, if_pos rfl, List.map_cons, List.sum_cons]
        by_cases huv : u = v
        · simp [huv]
          omega
        · simp [huv]
      · simp only [bump, if_neg huw, List.map_cons, List.sum_cons, ih w]
        omega

theorem buildUnique_keysum (v : Nat) :
    ∀ (A : List Nat) (acc : List (Nat × Nat)),
      ((A.foldl bump acc).map fun p => if p.1 = v then p.2 else 0).sum =
        ((acc.map fun p => if p.1 = v then p.2 else 0).sum) + A.count v := by
  intro A
  induction A with
  | nil => intro acc; simp
  | cons a rest ih =>
      intro acc
      simp only [List.foldl_cons, ih (bump acc a), bump_keysum v acc a, List.count_cons]
      by_cases hav : a = v
      · simp [hav]
        omega
      · simp [hav, Ne.symm hav]

theorem expansion_count (v : Nat) :
    ∀ ps : List (Nat × Nat),
      List.count v (ps.flatMap fun vc => List.replicate vc.2 vc.1) =
        (ps.map fun p => if p.1 = v then p.2 else 0).sum := by
  intro ps
  induction ps with
  | nil => simp
  | cons hd tl ih =>
      obtain ⟨u, c⟩ := hd
      simp only [List.flatMap_cons, List.count_append, ih, List.map_cons, List.sum_cons,
        List.count_replicate]
      by_cases huv : u = v
      · simp [huv]
      · simp [huv]

theorem sorted_replicate (c u : Nat) : (List.replicate c u).Sorted (· ≤ ·) := by
  induction c with
  | zero => simp
  | succ n ih =>
      rw [List.replicate_succ, List.sorted_cons]
      exact ⟨fun b hb => Nat.le_of_eq (List.eq_of_mem_replicate hb).symm, ih⟩

theorem expansion_sorted :
    ∀ ps : List (Nat × Nat), ps.Pairwise keyLe →
      (ps.flatMap fun vc => List.replicate vc.2 vc.1).Sorted (· ≤ ·) := by
  intro ps
  induction ps with
  | nil => intro _; simp
  | cons hd tl ih =>
      intro hpw
      rw [List.pairwise_cons] at hpw
      obtain ⟨hhd, htl⟩ := hpw
      rw [List.flatMap_cons]
      rw [List.Sorted, List.pairwise_append]
      refine ⟨sorted_replicate hd.2 hd.1, ih htl, ?_⟩
      intro a ha b hb
      rw [List.mem_flatMap] at hb
      obtain ⟨vc, hvc, hbvc⟩ := hb
      have ha1 : a = hd.1 := List.eq_of_mem_replicate ha
      have hb1 : b = vc.1 := List.eq_of_mem_replicate hbvc
      rw [ha1, hb1]
      exact hhd vc hvc

/-- CountingSort preserves the count of every value. -/
theorem CountingSort_count (A : List Nat) (v : Nat) :
    (CountingSort A).count v = A.count v := by
  unfold CountingSort
  rw [expansion_count v]
  have hperm : (List.insertionSort keyLe (buildUnique A)).Perm (buildUnique A) :=
    List.perm_insertionSort keyLe (buildUnique A)
  have hmap := hperm.map fun p : Nat × Nat => if p.1 = v then p.2 else 0
  rw [hmap.sum_eq]
  unfold buildUnique
  rw [buildUnique_keysum v A []]
  simp

/-! ## Median lemmas (claim C7) -/

theorem insertionSort_eq_of_sorted {A s : List Nat} (hperm : s.Perm A)
    (hsort : s.Sorted (· ≤ ·)) : List.insertionSort (· ≤ ·) A = s :=
  List.eq_of_perm_of_sorted ((List.perm_insertionSort _ A).trans hperm.symm)
    (List.sorted_insertionSort _ A) hsort

/-! ## Claim theorems: C6, C7, C8 -/

/-- C6: for every integer array `A` of length at most 1024,
`counting_sort(A)` produces a rearrangement of `A` that is a permutation of
the input (same multiset) and is in non-decreasing order.  (The length
bound is part of the claim; the property holds for every length.) -/
theorem countingSort_sorts (A : List Nat) (hlen : A.length ≤ 1024) :
    (CountingSort A).Perm A ∧ (CountingSort A).Sorted (· ≤ ·) := by
  constructor
  · rw [List.perm_iff_count]
    intro v
    exact CountingSort_count A v
  · unfold CountingSort
    exact expansion_sorted _ (List.sorted_insertionSort keyLe (buildUnique A))

/-- Witness for C6 at the concrete input `[5, 3, 5, 1]`. -/
theorem countingSort_sorts_witness :
    ([5, 3, 5, 1] : List Nat).length ≤ 1024 ∧
      (CountingSort [5, 3, 5, 1]).Perm [5, 3, 5, 1] ∧
      (CountingSort [5, 3, 5, 1]).Sorted (· ≤ ·) :=
  ⟨by decide, (countingSort_sorts [5, 3, 5, 1] (by decide)).1,
    (countingSort_sorts [5, 3, 5, 1] (by decide)).2⟩

/-- C7, counterexample: at `A = [2^64 - 1, 2^64 - 1]` the two middle
elements of the sorted array are `a = b = 2^64 - 1` and the rounded-up
integer average `(a + b + 1) / 2` is `2^64 - 1`, but `Median` computes the
sum in uint64 arithmetic, wraps, and returns `2^63 - 1`. -/
theorem Median_overflow_cex :
    Median [2 ^ 64 - 1, 2 ^ 64 - 1] ≠ ((2 ^ 64 - 1) + (2 ^ 64 - 1) + 1) / 2 := by
  decide

/-- C7, amended: for every non-empty array `A` of uint64 values that are
all below `2^63` (so the middle sum cannot wrap), `median(A)` returns the
middle element of the ascending-sorted array when the length is odd and
the rounded-up integer average `(a + b + 1) / 2` of the two middle
elements when it is even; `s` ranges over sorted permutations of `A`, of
which there is exactly one. -/
theorem Median_spec (A s : List Nat) (hne : A ≠ [])
    (hb : ∀ x ∈ A, x < 2 ^ 63) (hperm : s.Perm A) (hsort : s.Sorted (· ≤ ·)) :
    Median A = if A.length % 2 = 1 then s.getD (A.length / 2) 0
      else (s.getD (A.length / 2) 0 + s.getD (A.length / 2 - 1) 0 + 1) / 2 := by
  have hsl : s.length = A.length := hperm.length_eq
  have hpos : 0 < A.length := List.length_pos.mpr hne
  have hsA := insertionSort_eq_of_sorted hperm hsort
  unfold Median
  rw [hsA]
  by_cases hodd : A.length % 2 = 1
  · rw [if_pos hodd, if_pos hodd]
  · rw [if_neg hodd, if_neg hodd]
    have h2 : 2 ≤ A.length := by omega
    have hi1 : A.length / 2 < s.length := by omega
    have hi2 : A.length / 2 - 1 < s.length := by omega
    have hx : s.getD (A.length / 2 - 1) 0 ∈ A := hperm.mem_iff.mp (getD_mem_of_lt hi2)
    have hy : s.getD (A.length / 2) 0 ∈ A := hperm.mem_iff.mp (getD_mem_of_lt hi1)
    have hxb := hb _ hx
    have hyb := hb _ hy
    unfold avg64
    rw [Nat.mod_eq_of_lt (by
      have : (2 : Nat) ^ 63 + 2 ^ 63 = 2 ^ 64 := by norm_num
      omega)]

/-- Witness for C7 at the concrete input `[2, 4]`: the median is the
rounded-up average `3`. -/
theorem Median_spec_witness :
    ([2, 4] : List Nat) ≠ [] ∧ (∀ x ∈ ([2, 4] : List Nat), x < 2 ^ 63) ∧
      ([2, 4] : List Nat).Perm [2, 4] ∧ ([2, 4] : List Nat).Sorted (· ≤ ·) ∧
      Median [2, 4] = 3 :=
  ⟨by decide, by decide, by decide, by decide, by
    have h := Median_spec [2, 4] [2, 4] (by decide) (by decide) (by decide) (by decide)
    simpa using h⟩

/-- C8: at `sorted = [0, 0, 2^64 - 1]`, `idx_begin = 1`, `half_count = 1`
the precondition `sorted[i] ≤ sorted[i + half_count]` holds on the whole
searched range `{1}`, yet MinRange returns 0, outside the promised window
`[1, 2)`: the single range width `2^64 - 1` never beats the `min_range`
sentinel (initialised to `numeric_limits<uint64_t>::max()`), so `min_idx`
keeps its initial value 0, contradicting the function's own `@return`
documentation and the claim. -/
theorem MinRange_sentinel_escape :
    ([0, 0, 2 ^ 64 - 1] : List Nat).getD 1 0 ≤ [0, 0, 2 ^ 64 - 1].getD (1 + 1) 0 ∧
      MinRange [0, 0, 2 ^ 64 - 1] 1 1 = 0 ∧ ¬ 1 ≤ MinRange [0, 0, 2 ^ 64 - 1] 1 1 := by
  refine ⟨by decide, by decide, ?_⟩
  intro h
  rw [show MinRange [0, 0, 2 ^ 64 - 1] 1 1 = 0 from by decide] at h
  omega

/-! ## MinRange and ModeOfSorted loop lemmas (claims C2, C5) -/

/-- Full characterisation of the MinRange scan: either no candidate beats
the incoming `min_range` and the accumulator pair is returned unchanged,
or the result is the lowest index attaining the strict minimum of the
window's ranges (and that minimum beats the incoming `min_range`). -/
theorem minRangeAux_spec (s : List Nat) (h : Nat) :
    ∀ (k idx mr mi : Nat),
      (minRangeAux s h idx k mr mi = (mr, mi) ∧
        ∀ i, idx ≤ i → i < idx + k → mr ≤ rangeAt s h i) ∨
      (∃ r, idx ≤ r ∧ r < idx + k ∧
        minRangeAux s h idx k mr mi = (rangeAt s h r, r) ∧
        rangeAt s h r < mr ∧
        (∀ j, idx ≤ j → j < idx + k → rangeAt s h r ≤ rangeAt s h j) ∧
        (∀ j, idx ≤ j → j < r → rangeAt s h r < rangeAt s h j)) := by
  intro k
  induction k with
  | zero =>
      intro idx mr mi
      left
      exact ⟨rfl, fun i h1 h2 => absurd (Nat.lt_of_le_of_lt h1 h2) (by omega)⟩
  | succ k ih =>
      intro idx mr mi
      by_cases hlt : rangeAt s h idx < mr
      · have heq : minRangeAux s h idx (k + 1) mr mi =
            minRangeAux s h (idx + 1) k (rangeAt s h idx) idx := by
          simp [minRangeAux, hlt]
        rcases ih (idx + 1) (rangeAt s h idx) idx with
          ⟨hres, hall⟩ | ⟨r, hr1, hr2, hres, hrlt, hmin, hstrict⟩
        · right
          refine ⟨idx, Nat.le_refl _, by omega, by rw [heq, hres], hlt, ?_, ?_⟩
          · intro j hj1 hj2
            rcases Nat.lt_or_ge j (idx + 1) with hj | hj
            · have : j = idx := by omega
              subst this
              exact Nat.le_refl _
            · exact hall j hj (by omega)
          · intro j hj1 hj2
            exact absurd (Nat.lt_of_le_of_lt hj1 hj2) (by omega)
        · right
          refine ⟨r, by omega, by omega, by rw [heq, hres], Nat.lt_trans hrlt hlt, ?_, ?_⟩
          · intro j hj1 hj2
            rcases Nat.lt_or_ge j (idx + 1) with hj | hj
            · have : j = idx := by omega
              subst this
              exact Nat.le_of_lt hrlt
            · exact hmin j hj (by omega)
          · intro j hj1 hj2
            rcases Nat.lt_or_ge j (idx + 1) with hj | hj
            · have : j = idx := by omega
              subst this
              exact hrlt
            · exact hstrict j hj hj2
      · have heq : minRangeAux s h idx (k + 1) mr mi =
            minRangeAux s h (idx + 1) k mr mi := by
          simp [minRangeAux, hlt]
        rcases ih (idx + 1) mr mi with
          ⟨hres, hall⟩ | ⟨r, hr1, hr2, hres, hrlt, hmin, hstrict⟩

        · left
          refine ⟨by rw [heq, hres], ?_⟩
          intro i h1 h2
          rcases Nat.lt_or_ge i (idx + 1) with hi | hi
          · have : i = idx := by omega
            subst this
            omega
          · exact hall i hi (by omega)
        · right
          refine ⟨r, by omega, by omega, by rw [heq, hres], hrlt, ?_, ?_⟩
          · intro j hj1 hj2
            rcases Nat.lt_or_ge j (idx + 1) with hj | hj
            · have : j = idx := by omega
              subst this
              omega
            · exact hmin j hj (by omega)
          · intro j hj1 hj2
            rcases Nat.lt_or_ge j (idx + 1) with hj | hj
            · have : j = idx := by omega
              subst this
              omega
            · exact hstrict j hj hj2

/-- MinRange returns its initial `min_idx = 0` or an index of the scanned
window. -/
theorem MinRange_cases (s : List Nat) (b h : Nat) :
    MinRange s b h = 0 ∨ (b ≤ MinRange s b h ∧ MinRange s b h < b + h) := by
  unfold MinRange
  rcases minRangeAux_spec s h h b (2 ^ 64 - 1) 0 with ⟨hres, _⟩ | ⟨r, hr1, hr2, hres, _⟩
  · left
    rw [hres]
  · right
    rw [hres]
    exact ⟨hr1, hr2⟩

/-- If some window range beats the `uint64` sentinel (in particular the
first one), MinRange lands inside the scanned window. -/
theorem MinRange_in_window (s : List Nat) (b h : Nat) (hh : 0 < h)
    (hfirst : rangeAt s h b < 2 ^ 64 - 1) :
    b ≤ MinRange s b h ∧ MinRange s b h < b + h := by
  unfold MinRange
  rcases minRangeAux_spec s h h b (2 ^ 64 - 1) 0 with ⟨hres, hall⟩ | ⟨r, hr1, hr2, hres, _⟩
  · exact absurd (hall b (Nat.le_refl _) (by omega)) (by omega)
  · rw [hres]
    exact ⟨hr1, hr2⟩

theorem modeLoop_eq (s : List Nat) (i h : Nat) : modeLoop s i h = modeLoopF s h i h := rfl

/-- Loop invariant of the halving loop, for arbitrary (not necessarily
sorted) input: from `idx + 2 * half ≤ n` every later state satisfies the
same bound, the final `half_count` is at most 1, and every MinRange call
site satisfies the bound as well. -/
theorem modeLoopF_inv (s : List Nat) (n : Nat) :
    ∀ (fuel idx half : Nat), idx + 2 * half ≤ n → half ≤ fuel →
      ((modeLoopF s fuel idx half).1 + 2 * (modeLoopF s fuel idx half).2 ≤ n ∧
        (modeLoopF s fuel idx half).2 ≤ 1) ∧
      ∀ c ∈ modeLoopCalls s fuel idx half, c.1 + 2 * c.2 ≤ n := by
  intro fuel
  induction fuel with
  | zero =>
      intro idx half hinv hfuel
      have : half = 0 := by omega
      subst this
      exact ⟨⟨by simpa [modeLoopF] using hinv, by simp [modeLoopF]⟩, by simp [modeLoopCalls]⟩
  | succ f ih =>
      intro idx half hinv hfuel
      by_cases hh : 1 < half
      · have hrec1 : modeLoopF s (f + 1) idx half =
            modeLoopF s f (MinRange s idx half) (half / 2) := by
          simp [modeLoopF, hh]
        have hrec2 : modeLoopCalls s (f + 1) idx half =
            (idx, half) :: modeLoopCalls s f (MinRange s idx half) (half / 2) := by
          simp [modeLoopCalls, hh]
        have hnext : MinRange s idx half + 2 * (half / 2) ≤ n := by
          rcases MinRange_cases s idx half with h0 | ⟨h1, h2⟩
          · rw [h0]
            omega
          · omega
        obtain ⟨hmain, hcalls⟩ := ih (MinRange s idx half) (half / 2) hnext (by omega)
        rw [hrec1, hrec2]
        refine ⟨hmain, ?_⟩
        intro c hc
        rcases List.mem_cons.mp hc with rfl | hc2
        · simpa using hinv
        · exact hcalls c hc2
      · have h1 : modeLoopF s (f + 1) idx half = (idx, half) := by
          simp [modeLoopF, hh]
        have h2 : modeLoopCalls s (f + 1) idx half = [] := by
          simp [modeLoopCalls, hh]
        rw [h1, h2]
        exact ⟨⟨hinv, by omega⟩, by simp⟩

/-- Strengthened invariant on sorted, `< 2^63`-bounded input: the window
start additionally stays strictly inside the list, because each MinRange
call is beaten on its first candidate and therefore lands in its window. -/
theorem modeLoopF_sorted_inv (s : List Nat) (hs : s.Sorted (· ≤ ·))
    (hb : ∀ x ∈ s, x < 2 ^ 63) :
    ∀ (fuel idx half : Nat), idx + 2 * half ≤ s.length → idx < s.length → half ≤ fuel →
      (modeLoopF s fuel idx half).1 + 2 * (modeLoopF s fuel idx half).2 ≤ s.length ∧
      (modeLoopF s fuel idx half).1 < s.length ∧ (modeLoopF s fuel idx half).2 ≤ 1 := by
  intro fuel
  induction fuel with
  | zero =>
      intro idx half h1 h2 h3
      have : half = 0 := by omega
      subst this
      exact ⟨by simpa [modeLoopF] using h1, by simpa [modeLoopF] using h2, by simp [modeLoopF]⟩
  | succ f ih =>
      intro idx half h1 h2 h3
      by_cases hh : 1 < half
      · have hib : idx + half < s.length := by omega
        have hrange : rangeAt s half idx < 2 ^ 64 - 1 := by
          have hle : s.getD idx 0 ≤ s.getD (idx + half) 0 :=
            sorted_getD_le hs (by omega) hib
          have hbv : s.getD (idx + half) 0 < 2 ^ 63 := hb _ (getD_mem_of_lt hib)
          unfold rangeAt
          rw [wsub_exact hle (by
            have : (2 : Nat) ^ 63 < 2 ^ 64 := by norm_num
            omega)]
          have : (2 : Nat) ^ 63 < 2 ^ 64 - 1 := by norm_num
          omega
        obtain ⟨hw1, hw2⟩ := MinRange_in_window s idx half (by omega) hrange
        have hrec : modeLoopF s (f + 1) idx half =
            modeLoopF s f (MinRange s idx half) (half / 2) := by
          simp [modeLoopF, hh]
        rw [hrec]
        exact ih (MinRange s idx half) (half / 2) (by omega) (by omega) (by omega)
      · have heq : modeLoopF s (f + 1) idx half = (idx, half) := by
          simp [modeLoopF, hh]
        rw [heq]
        exact ⟨h1, h2, by omega⟩

/-! ## Claim theorems: C2, C5 -/

/-- C5: in `mode_of_sorted` on an array of length `num_values`, every index
read performed by the MinRange iterations satisfies
`idx + half_count < num_values` (all array accesses are in bounds), and the
halving loop terminates with `half_count ≤ 1`.  `modeLoopCalls` enumerates
the `(idx_begin, half_count)` arguments of every MinRange call of the run;
an iteration at `idx ∈ [idx_begin, idx_begin + half_count)` reads indices
`idx` and `idx + half_count`. -/
theorem ModeOfSorted_accesses_in_bounds (sorted : List Nat) :
    (∀ c ∈ modeLoopCalls sorted (sorted.length / 2) 0 (sorted.length / 2),
      ∀ i, c.1 ≤ i → i < c.1 + c.2 → i + c.2 < sorted.length) ∧
    (modeLoop sorted 0 (sorted.length / 2)).2 ≤ 1 := by
  obtain ⟨⟨h1, h2⟩, hcalls⟩ := modeLoopF_inv sorted sorted.length (sorted.length / 2) 0
    (sorted.length / 2) (by omega) (Nat.le_refl _)
  refine ⟨?_, by rw [modeLoop_eq]; exact h2⟩
  intro c hc i hi1 hi2
  have := hcalls c hc
  omega

/-- Witness for C5 on the concrete array `[5, 3, 8, 1, 9, 2]` (length 6):
the single MinRange call has `(idx_begin, half_count) = (0, 3)`, its last
iteration index 2 satisfies `2 + 3 < 6`, and the loop ends with
`half_count ≤ 1`. -/
theorem ModeOfSorted_accesses_in_bounds_witness :
    (0, 3) ∈ modeLoopCalls [5, 3, 8, 1, 9, 2] 3 0 3 ∧ (2 : Nat) + 3 < 6 ∧
      (modeLoop [5, 3, 8, 1, 9, 2] 0 3).2 ≤ 1 :=
  ⟨by decide,
    (ModeOfSorted_accesses_in_bounds [5, 3, 8, 1, 9, 2]).1 (0, 3) (by decide) 2
      (by decide) (by decide),
    (ModeOfSorted_accesses_in_bounds [5, 3, 8, 1, 9, 2]).2⟩

/-- C2, counterexample: the ascending-sorted array
`[2^64 - 2, 2^64 - 1]` has its Half Sample Mode computed as the uint64
rounded average of its two elements; the sum wraps and the result
`2^63 - 1` lies far below the minimum `2^64 - 2`. -/
theorem ModeOfSorted_overflow_cex :
    ([2 ^ 64 - 2, 2 ^ 64 - 1] : List Nat).Sorted (· ≤ ·) ∧
      ¬ ([2 ^ 64 - 2, 2 ^ 64 - 1] : List Nat).getD 0 0 ≤
          ModeOfSorted [2 ^ 64 - 2, 2 ^ 64 - 1] 2 := by
  decide

/-- C2, amended: for every non-empty ascending-sorted array whose elements
are below `2^63` (so the final rounded average cannot wrap),
`mode_of_sorted` returns a value within `[min(A), max(A)]`, i.e. between
the first and the last element. -/
theorem ModeOfSorted_in_range (A : List Nat) (hne : A ≠ []) (hs : A.Sorted (· ≤ ·))
    (hb : ∀ x ∈ A, x < 2 ^ 63) :
    A.getD 0 0 ≤ ModeOfSorted A A.length ∧
      ModeOfSorted A A.length ≤ A.getD (A.length - 1) 0 := by
  have hpos : 0 < A.length := List.length_pos.mpr hne
  obtain ⟨h1, h2, h3⟩ := modeLoopF_sorted_inv A hs hb (A.length / 2) 0 (A.length / 2)
    (by omega) hpos (Nat.le_refl _)
  unfold ModeOfSorted
  rw [modeLoop_eq]
  by_cases hz : (modeLoopF A (A.length / 2) 0 (A.length / 2)).2 = 0
  · simp only [hz, if_pos rfl]
    exact sorted_getD_bounds hs h2
  · rw [if_neg hz]
    have hi1 : (modeLoopF A (A.length / 2) 0 (A.length / 2)).1 + 1 < A.length := by omega
    have hxy := sorted_getD_adjacent hs hi1
    have hyb : A.getD ((modeLoopF A (A.length / 2) 0 (A.length / 2)).1 + 1) 0 < 2 ^ 63 :=
      hb _ (getD_mem_of_lt hi1)
    obtain ⟨ha1, ha2⟩ := avg64_between hxy hyb
    exact ⟨Nat.le_trans (sorted_getD_bounds hs h2).1 ha1,
      Nat.le_trans ha2 (sorted_getD_bounds hs hi1).2⟩

/-- Witness for C2 (amended) on the concrete array `[1, 2, 3]`. -/
theorem ModeOfSorted_in_range_witness :
    (([1, 2, 3] : List Nat) ≠ [] ∧ ([1, 2, 3] : List Nat).Sorted (· ≤ ·) ∧
      ∀ x ∈ ([1, 2, 3] : List Nat), x < 2 ^ 63) ∧
    1 ≤ ModeOfSorted [1, 2, 3] 3 ∧ ModeOfSorted [1, 2, 3] 3 ≤ 3 :=
  ⟨⟨by decide, by decide, by decide⟩, by
    have h := ModeOfSorted_in_range [1, 2, 3] (by decide) (by decide) (by decide)
    simpa using h⟩

/-! ## Shuffle and FillSubset lemmas (claim C1) -/

theorem cons_set_perm :
    ∀ (t : List Nat) (k x : Nat), k < t.length →
      (t.getD k 0 :: t.set k x).Perm (x :: t) := by
  intro t
  induction t with
  | nil => intro k x hk; simp at hk
  | cons a s ih =>
      intro k x hk
      cases k with
      | zero => simpa using List.Perm.swap x a s
      | succ m =>
          have hm : m < s.length := by simpa using hk
          have h1 : (a :: s).getD (m + 1) 0 :: (a :: s).set (m + 1) x
              = s.getD m 0 :: a :: s.set m x := by simp
          rw [h1]
          exact ((List.Perm.swap a (s.getD m 0) (s.set m x)).trans
            ((ih m x hm).cons a)).trans (List.Perm.swap x a s)

theorem swapL_perm :
    ∀ (l : List Nat) (i j : Nat), i < l.length → j < l.length → (swapL l i j).Perm l := by
  intro l
  induction l with
  | nil => intro i j hi _; simp at hi
  | cons a t ih =>
      intro i j hi hj
      cases i with
      | zero =>
          cases j with
          | zero => simp [swapL]
          | succ m =>
              have hm : m < t.length := by simpa using hj
              have : swapL (a :: t) 0 (m + 1) = t.getD m 0 :: t.set m a := by
                simp [swapL]
              rw [this]
              exact cons_set_perm t m a hm
      | succ k =>
          cases j with
          | zero =>
              have hk : k < t.length := by simpa using hi
              have : swapL (a :: t) (k + 1) 0 = t.getD k 0 :: t.set k a := by
                simp [swapL]
              rw [this]
              exact cons_set_perm t k a hk
          | succ m =>
              have hk : k < t.length := by simpa using hi
              have hm : m < t.length := by simpa using hj
              have : swapL (a :: t) (k + 1) (m + 1) = a :: swapL t k m := by
                simp [swapL]
              rw [this]
              exact (ih k m hk hm).cons a

theorem shuffleFold_perm (l0 : List Nat) :
    ∀ (idxs : List Nat) (st : List Nat × MT), st.1.Perm l0 → (∀ i ∈ idxs, i < l0.length) →
      ((idxs.foldl
        (fun st i =>
          let rg := mtNext st.2
          (swapL st.1 i (rg.1 % (i + 1)), rg.2)) st).1).Perm l0 := by
  intro idxs
  induction idxs with
  | nil => intro st hst _; simpa using hst
  | cons i rest ih =>
      intro st hst hmem
      rw [List.foldl_cons]
      apply ih
      · have hi : i < st.1.length := by
          rw [hst.length_eq]
          exact hmem i (List.mem_cons_self i rest)
        have hd : (mtNext st.2).1 % (i + 1) < st.1.length :=
          Nat.lt_of_lt_of_le (Nat.mod_lt _ (Nat.succ_pos i)) hi
        exact (swapL_perm st.1 i ((mtNext st.2).1 % (i + 1)) hi hd).trans hst
      · exact fun j hj => hmem j (List.mem_cons_of_mem i hj)

theorem stdShuffle_perm (l : List Nat) (g : MT) : (stdShuffle l g).Perm l := by
  unfold stdShuffle
  apply shuffleFold_perm l _ (l, g) (List.Perm.refl l)
  intro i hi
  exact List.mem_range.mp (List.mem_of_mem_drop hi)

/-- A strictly ascending list of naturals drawn from `[lo, lo + n)` has at
most `n` entries. -/
theorem sorted_bounds_length :
    ∀ (om : List Nat) (lo n : Nat), om.Sorted (· < ·) →
      (∀ x ∈ om, lo ≤ x ∧ x < lo + n) → om.length ≤ n := by
  intro om
  induction om with
  | nil => intro lo n _ _; simp
  | cons o os ih =>
      intro lo n hsort hb
      obtain ⟨hhead, htail⟩ := List.sorted_cons.mp hsort
      obtain ⟨hlo, hhi⟩ := hb o (List.mem_cons_self o os)
      have hn : 1 ≤ n := by omega
      have hos : os.length ≤ n - 1 := by
        apply ih (lo + 1) (n - 1) htail
        intro x hx
        have h1 := hhead x hx
        have h2 := hb x (List.mem_cons_of_mem o hx)
        omega
      simp only [List.length_cons]
      omega

/-- Behaviour of the FillSubset copy loop: if the pending omit indices are
strictly ascending, are at least the current occurrence counter and refer
to occurrences that still lie ahead, and the occurrence counter cannot
reach the uint32 wrap, then the loop removes exactly one occurrence of `v`
per omit index and copies everything else, preserving relative order
(sublist). -/
theorem fillLoop_spec (v : Nat) :
    ∀ (l om : List Nat) (occ : Nat), om.Sorted (· < ·) →
      (∀ x ∈ om, occ ≤ x ∧ x < occ + l.count v) →
      occ + l.count v ≤ 2 ^ 32 →
      (fillLoop v l om occ).length = l.length - om.length ∧
      (fillLoop v l om occ).count v = l.count v - om.length ∧
      (∀ u, u ≠ v → (fillLoop v l om occ).count u = l.count u) ∧
      (fillLoop v l om occ).Sublist l := by
  intro l
  induction l with
  | nil =>
      intro om occ _ hb _
      have hom : om = [] := by
        cases om with
        | nil => rfl
        | cons o os =>
            have h := hb o (List.mem_cons_self o os)
            simp only [List.count_nil] at h
            omega
      subst hom
      simp [fillLoop]
  | cons next rest ih =>
      intro om occ hsort hb hb32
      have hcl : (next :: rest).count v = rest.count v + if next == v then 1 else 0 :=
        List.count_cons v next rest
      by_cases hnv : next = v
      · subst hnv
        have hcnt : (next :: rest).count next = rest.count next + 1 := by
          simp [List.count_cons]
        have hocc : occ % 2 ^ 32 = occ := by
          apply Nat.mod_eq_of_lt
          rw [hcnt] at hb32
          omega
        have hbequ : ∀ u : Nat, u ≠ next → (next == u) = false := by
          intro u hu
          simp only [beq_eq_false_iff_ne, ne_eq]
          exact fun h => hu h.symm
        cases om with
        | nil =>
            have heq : fillLoop next (next :: rest) [] occ =
                next :: fillLoop next rest [] (occ + 1) := by
              simp [fillLoop]
            obtain ⟨hl, hc, hcu, hsub⟩ := ih [] (occ + 1) (by simp) (by simp) (by
              rw [hcnt] at hb32
              omega)
            simp only [List.length_nil, Nat.sub_zero] at hl hc
            rw [heq]
            refine ⟨by simp [hl], ?_, ?_, hsub.cons₂ next⟩
            · simp only [List.count_cons, beq_self_eq_true, if_pos, List.length_nil]
              omega
            · intro u hu
              simp only [List.count_cons, hbequ u hu, Bool.false_eq_true, if_neg,
                Nat.add_zero, not_false_eq_true]
              exact hcu u hu
        | cons o os =>
            obtain ⟨hhead, htail⟩ := List.sorted_cons.mp hsort
            have hskel : fillLoop next (next :: rest) (o :: os) occ =
                if next = next then
                  (if occ % 2 ^ 32 = o then fillLoop next rest os (occ + 1)
                   else next :: fillLoop next rest (o :: os) (occ + 1))
                else next :: fillLoop next rest (o :: os) occ := rfl
            by_cases hoc : occ = o
            · have hcond : occ % 2 ^ 32 = o := by
                rw [hocc]
                exact hoc
              have heq : fillLoop next (next :: rest) (o :: os) occ =
                  fillLoop next rest os (occ + 1) := by
                rw [hskel, if_pos rfl, if_pos hcond]
              obtain ⟨hl, hc, hcu, hsub⟩ := ih os (occ + 1) htail (by
                intro x hx
                have h1 := hhead x hx
                have h2 := hb x (List.mem_cons_of_mem o hx)
                rw [hcnt] at h2
                omega) (by
                rw [hcnt] at hb32
                omega)
              have hoslen : os.length ≤ rest.count next := by
                apply sorted_bounds_length os (occ + 1) (rest.count next) htail
                intro x hx
                have h1 := hhead x hx
                have h2 := hb x (List.mem_cons_of_mem o hx)
                rw [hcnt] at h2
                omega
              have hclen : rest.count next ≤ rest.length := List.count_le_length next rest
              rw [heq]
              refine ⟨?_, ?_, ?_, hsub.cons next⟩
              · rw [hl]
                simp only [List.length_cons]
                omega
              · rw [hc, hcnt]
                simp only [List.length_cons]
                omega
              · intro u hu
                rw [hcu u hu, List.count_cons, hbequ u hu]
                simp
            · have hocle : occ < o := Nat.lt_of_le_of_ne (hb o (List.mem_cons_self o os)).1 hoc
              have hcond : ¬ occ % 2 ^ 32 = o := by
                rw [hocc]
                exact hoc
              have heq : fillLoop next (next :: rest) (o :: os) occ =
                  next :: fillLoop next rest (o :: os) (occ + 1) := by
                rw [hskel, if_pos rfl, if_neg hcond]
              have hbnds : ∀ x ∈ o :: os, occ + 1 ≤ x ∧ x < occ + 1 + rest.count next := by
                intro x hx
                rcases List.mem_cons.mp hx with rfl | hx2
                · have h2 := hb x (List.mem_cons_self x os)
                  rw [hcnt] at h2
                  omega
                · have h1 := hhead x hx2
                  have h2 := hb x (List.mem_cons_of_mem o hx2)
                  rw [hcnt] at h2
                  omega
              obtain ⟨hl, hc, hcu, hsub⟩ := ih (o :: os) (occ + 1) hsort hbnds (by
                rw [hcnt] at hb32
                omega)
              have homlen : (o :: os).length ≤ rest.count next :=
                sorted_bounds_length (o :: os) (occ + 1) (rest.count next) hsort hbnds
              have hclen : rest.count next ≤ rest.length := List.count_le_length next rest
              rw [heq]
              refine ⟨?_, ?_, ?_, hsub.cons₂ next⟩
              · simp only [List.length_cons]
                simp only [List.length_cons] at homlen hl ⊢
                omega
              · simp only [List.count_cons, beq_self_eq_true, if_pos] at hcnt hc ⊢
                simp only [List.length_cons] at homlen hl hc ⊢
                omega
              · intro u hu
                simp only [List.count_cons, hbequ u hu, Bool.false_eq_true, if_neg,
                  Nat.add_zero, not_false_eq_true]
                exact hcu u hu
      · have heq : fillLoop v (next :: rest) om occ =
            next :: fillLoop v rest om occ := by
          simp [fillLoop, hnv]
        have hcnt : (next :: rest).count v = rest.count v := by
          simp [List.count_cons, hnv]
        obtain ⟨hl, hc, hcu, hsub⟩ := ih om occ hsort (by
          intro x hx
          have := hb x hx
          rw [hcnt] at this
          exact this) (by
          rw [hcnt] at hb32
          exact hb32)
        have homlen : om.length ≤ rest.count v :=
          sorted_bounds_length om occ (rest.count v) hsort (by
            intro x hx
            have := hb x hx
            rw [hcnt] at this
            exact this)
        have hclen : rest.count v ≤ rest.length := List.count_le_length v rest
        rw [heq]
        refine ⟨?_, ?_, ?_, hsub.cons₂ next⟩
        · simp only [List.length_cons]
          omega
        · have : (next == v) = false := by
            simp [hnv]
          simp only [List.count_cons, this, Bool.false_eq_true, if_neg, Nat.add_zero]
          omega
        · intro u hu
          rw [List.count_cons, List.count_cons, hcu u hu]

/-! ## Claim theorems: C1 -/

/-- A run of `k` copies of `v` whose occurrence numbers all miss the next
omit index is copied verbatim by the FillSubset loop, advancing the
occurrence counter by `k`. -/
theorem fillLoop_replicate_nomatch (v o : Nat) (os tail : List Nat) :
    ∀ (k occ : Nat), (∀ j, occ ≤ j → j < occ + k → j % 2 ^ 32 ≠ o) →
      fillLoop v (List.replicate k v ++ tail) (o :: os) occ =
        List.replicate k v ++ fillLoop v tail (o :: os) (occ + k) := by
  intro k
  induction k with
  | zero =>
      intro occ _
      simp
  | succ m ih =>
      intro occ h
      have hne : ¬ occ % 2 ^ 32 = o := h occ (Nat.le_refl _) (by omega)
      have hstep : fillLoop v (List.replicate (m + 1) v ++ tail) (o :: os) occ =
          v :: fillLoop v (List.replicate m v ++ tail) (o :: os) (occ + 1) := by
        rw [List.replicate_succ, List.cons_append]
        have hskel : fillLoop v (v :: (List.replicate m v ++ tail)) (o :: os) occ =
            if v = v then
              (if occ % 2 ^ 32 = o then fillLoop v (List.replicate m v ++ tail) os (occ + 1)
               else v :: fillLoop v (List.replicate m v ++ tail) (o :: os) (occ + 1))
            else v :: fillLoop v (List.replicate m v ++ tail) (o :: os) occ := rfl
        rw [hskel, if_pos rfl, if_neg hne]
      rw [hstep, ih (occ + 1) (fun j h1 h2 => h j (by omega) (by omega))]
      have hocc : occ + 1 + m = occ + (m + 1) := by omega
      rw [hocc, List.replicate_succ, List.cons_append]

/-- FillSubset copy loop: the empty-input step. -/
theorem fillLoop_nil (v : Nat) (omits : List Nat) (occ : Nat) :
    fillLoop v [] omits occ = [] := rfl

/-- FillSubset copy loop: an occurrence of the skip value whose (wrapped)
occurrence number equals the next omit index is skipped. -/
theorem fillLoop_skip_match (v : Nat) (rest os : List Nat) (o occ : Nat)
    (h : occ % 2 ^ 32 = o) :
    fillLoop v (v :: rest) (o :: os) occ = fillLoop v rest os (occ + 1) := by
  have hskel : fillLoop v (v :: rest) (o :: os) occ =
      if v = v then
        (if occ % 2 ^ 32 = o then fillLoop v rest os (occ + 1)
         else v :: fillLoop v rest (o :: os) (occ + 1))
      else v :: fillLoop v rest (o :: os) occ := rfl
  rw [hskel, if_pos rfl, if_pos h]

/-- FillSubset copy loop: an element different from the skip value is copied
and the occurrence counter is unchanged. -/
theorem fillLoop_copy_ne (v next : Nat) (rest omits : List Nat) (occ : Nat)
    (h : ¬ next = v) :
    fillLoop v (next :: rest) omits occ = next :: fillLoop v rest omits occ := by
  have hskel : fillLoop v (next :: rest) omits occ =
      if next = v then
        (match omits with
         | o :: os =>
             if occ % 2 ^ 32 = o then fillLoop v rest os (occ + 1)
             else next :: fillLoop v rest (o :: os) (occ + 1)
         | [] => next :: fillLoop v rest [] (occ + 1))
      else next :: fillLoop v rest omits occ := rfl
  rw [hskel, if_neg h]

set_option maxRecDepth 20000 in
/-- C1, counterexample: on a vector with `2 ^ 32 + 1` occurrences of the
skip value (one more than the uint32 domain), skipping all of them.  The
omit vector is `iota` wrapped in uint32 — the value 0 appears twice and
`2 ^ 32` is missing — and since `num_skip` equals the occurrence count, the
resize keeps the whole shuffled vector, so the sorted omit list is known
without evaluating the shuffle: `[0, 0, 1, ..., 2 ^ 32 - 1]`.  The second 0
only matches when the uint32 occurrence counter wraps back to 0 at the
last occurrence; every intermediate occurrence is copied, the one-slot
output buffer receives a copy of the skip value, and the claimed count
equality `count(out, v) = count(full, v) - num_skip = 0` fails. -/
theorem FillSubset_wrap_cex :
    2 ^ 32 + 1 ≤ (List.replicate (2 ^ 32 + 1) 0 ++ [5]).count 0 ∧
    ([9] : List Nat).length =
      (List.replicate (2 ^ 32 + 1) 0 ++ [5]).length - (2 ^ 32 + 1) ∧
    (FillSubset (List.replicate (2 ^ 32 + 1) 0 ++ [5]) 0 (2 ^ 32 + 1) [9]).count 0 ≠
      (List.replicate (2 ^ 32 + 1) 0 ++ [5]).count 0 - (2 ^ 32 + 1) := by
  have h5c : ([5] : List Nat).count 0 = 0 := by decide
  have hcount : (List.replicate (2 ^ 32 + 1) 0 ++ [5]).count 0 = 2 ^ 32 + 1 := by
    rw [List.count_append, List.count_replicate_self, h5c]
  have hflen : (List.replicate (2 ^ 32 + 1) 0 ++ [5]).length = 2 ^ 32 + 2 := by
    rw [List.length_append, List.length_replicate]
    norm_num
  refine ⟨by rw [hcount], by rw [hflen]; norm_num, ?_⟩
  have h232 : (2 : Nat) ^ 32 = (2 ^ 32 - 1) + 1 := by norm_num
  have hiota : (List.range (2 ^ 32 + 1)).map (· % 2 ^ 32) =
      List.range (2 ^ 32) ++ [0] := by
    rw [List.range_succ, List.map_append]
    have h1 : (List.range (2 ^ 32)).map (· % 2 ^ 32) =
        (List.range (2 ^ 32)).map id :=
      List.map_congr_left fun a ha => Nat.mod_eq_of_lt (List.mem_range.mp ha)
    rw [h1, List.map_id]
    simp only [List.map_cons, List.map_nil, Nat.mod_self]
  have homit : List.insertionSort (· ≤ ·) ((stdShuffle ((List.range (2 ^ 32 + 1)).map
      (· % 2 ^ 32)) mt19937Default).take (2 ^ 32 + 1)) = 0 :: List.range (2 ^ 32) := by
    have hshp : (stdShuffle ((List.range (2 ^ 32 + 1)).map (· % 2 ^ 32))
        mt19937Default).Perm (List.range (2 ^ 32) ++ [0]) := by
      refine (stdShuffle_perm _ _).trans ?_
      rw [hiota]
    have hshlen : (stdShuffle ((List.range (2 ^ 32 + 1)).map (· % 2 ^ 32))
        mt19937Default).length = 2 ^ 32 + 1 := by
      rw [hshp.length_eq, List.length_append, List.length_range]
      rfl
    rw [List.take_of_length_le (by rw [hshlen])]
    apply insertionSort_eq_of_sorted
    · exact (List.perm_append_singleton 0 (List.range (2 ^ 32))).symm.trans hshp.symm
    · rw [List.sorted_cons]
      refine ⟨fun b _ => Nat.zero_le b, ?_⟩
      exact (List.pairwise_lt_range (2 ^ 32)).imp fun h => Nat.le_of_lt h
  have hkept : fillLoop 0 (List.replicate (2 ^ 32 + 1) 0 ++ [5])
      (0 :: List.range (2 ^ 32)) 0 = List.replicate (2 ^ 32 - 1) 0 ++ [5] := by
    have hdecomp : List.replicate (2 ^ 32 + 1) 0 ++ [5] =
        0 :: (List.replicate (2 ^ 32 - 1) 0 ++ ([0] ++ [5])) := by
      conv_lhs => rw [List.replicate_succ, List.cons_append, h232,
        List.replicate_succ', List.append_assoc]
    have hos : List.range (2 ^ 32) =
        0 :: (List.range (2 ^ 32 - 1)).map Nat.succ := by
      conv_lhs => rw [h232, List.range_succ_eq_map]
    rw [hdecomp, hos]
    rw [fillLoop_skip_match 0 _ _ 0 0 (by norm_num)]
    rw [fillLoop_replicate_nomatch 0 0 ((List.range (2 ^ 32 - 1)).map Nat.succ)
      ([0] ++ [5]) (2 ^ 32 - 1) 1 (by
        intro j h1 h2
        rw [Nat.mod_eq_of_lt (by omega)]
        omega)]
    have h1m : 1 + (2 ^ 32 - 1) = 2 ^ 32 := by norm_num
    rw [h1m, List.singleton_append]
    rw [fillLoop_skip_match 0 [5] _ 0 (2 ^ 32) (Nat.mod_self _)]
    rw [fillLoop_copy_ne 0 5 [] _ _ (by norm_num), fillLoop_nil]
  have hdef : FillSubset (List.replicate (2 ^ 32 + 1) 0 ++ [5]) 0 (2 ^ 32 + 1) [9] =
      (fillLoop 0 (List.replicate (2 ^ 32 + 1) 0 ++ [5])
        (List.insertionSort (· ≤ ·) ((stdShuffle ((List.range ((List.replicate
          (2 ^ 32 + 1) 0 ++ [5]).count 0)).map (· % 2 ^ 32)) mt19937Default).take
          (2 ^ 32 + 1))) 0).take ([9] : List Nat).length ++
        ([9] : List Nat).drop (fillLoop 0 (List.replicate (2 ^ 32 + 1) 0 ++ [5])
        (List.insertionSort (· ≤ ·) ((stdShuffle ((List.range ((List.replicate
          (2 ^ 32 + 1) 0 ++ [5]).count 0)).map (· % 2 ^ 32)) mt19937Default).take
          (2 ^ 32 + 1))) 0).length := rfl
  rw [hdef, hcount, homit, hkept]
  have hkeptlen : (List.replicate (2 ^ 32 - 1) 0 ++ [5]).length = 2 ^ 32 := by
    rw [List.length_append, List.length_replicate]
    norm_num
  rw [hkeptlen]
  have htake : (List.replicate (2 ^ 32 - 1) 0 ++ [5]).take ([9] : List Nat).length =
      [0] := by
    rw [List.take_append_eq_append_take, List.take_replicate, List.length_replicate]
    have hmin : min ([9] : List Nat).length (2 ^ 32 - 1) = 1 := by
      rw [List.length_singleton]
      exact min_eq_left (by norm_num)
    have hsub : ([9] : List Nat).length - (2 ^ 32 - 1) = 0 := by
      rw [List.length_singleton]
      norm_num
    rw [hmin, hsub, List.take_zero, List.append_nil]
    rfl
  have hdrop : ([9] : List Nat).drop (2 ^ 32) = [] :=
    List.drop_eq_nil_of_le (by rw [List.length_singleton]; norm_num)
  rw [htake, hdrop, List.append_nil]
  decide


/-- C1, amended: for every vector `full` with fewer than `2^32` elements
(the domain of the source's uint32 omit indices and occurrence counter),
value `skip_value` occurring at least `num_skip` times in `full`, and
output buffer `subset` of length `full.len() - num_skip`, after
`fill_subset`: the count of `skip_value` in the result equals its count in
`full` minus `num_skip`; every other value keeps its count; and the
remaining elements appear in the same relative order as in `full` (the
result is a sublist of `full`). -/
theorem FillSubset_spec (full : List Nat) (skip_value num_skip : Nat) (subset : List Nat)
    (hskip : num_skip ≤ full.count skip_value)
    (hlen : subset.length = full.length - num_skip)
    (hsz : full.length < 2 ^ 32) :
    (FillSubset full skip_value num_skip subset).count skip_value =
        full.count skip_value - num_skip ∧
    (∀ u, u ≠ skip_value →
      (FillSubset full skip_value num_skip subset).count u = full.count u) ∧
    (FillSubset full skip_value num_skip subset).Sublist full := by
  have hcount32 : full.count skip_value < 2 ^ 32 :=
    Nat.lt_of_le_of_lt (List.count_le_length skip_value full) hsz
  have hiota : (List.range (full.count skip_value)).map (· % 2 ^ 32) =
      List.range (full.count skip_value) := by
    have h1 : (List.range (full.count skip_value)).map (· % 2 ^ 32) =
        (List.range (full.count skip_value)).map id :=
      List.map_congr_left fun a ha =>
        Nat.mod_eq_of_lt (Nat.lt_trans (List.mem_range.mp ha) hcount32)
    rw [h1, List.map_id]
  set sh := stdShuffle ((List.range (full.count skip_value)).map (· % 2 ^ 32))
    mt19937Default with hsh
  have hshp : sh.Perm (List.range (full.count skip_value)) := by
    rw [hsh]
    refine (stdShuffle_perm _ _).trans ?_
    rw [hiota]
  have hshlen : sh.length = full.count skip_value := by
    rw [hshp.length_eq, List.length_range]
  set om0 := sh.take num_skip with hom0
  have hom0len : om0.length = num_skip := by
    rw [hom0, List.length_take]
    omega
  have hom0sub : om0.Sublist sh := by
    rw [hom0]
    exact List.take_sublist _ _
  have hom0nd : om0.Nodup :=
    hom0sub.nodup (hshp.symm.nodup (List.nodup_range (full.count skip_value)))
  have hom0mem : ∀ x ∈ om0, x < full.count skip_value := fun x hx =>
    List.mem_range.mp (hshp.mem_iff.mp (hom0sub.subset hx))
  set OM := List.insertionSort (· ≤ ·) om0 with hOM
  have homp : OM.Perm om0 := List.perm_insertionSort _ _
  have homlen : OM.length = num_skip := by
    rw [homp.length_eq, hom0len]
  have homsorted : OM.Sorted (· < ·) := by
    have hle : OM.Sorted (· ≤ ·) := List.sorted_insertionSort _ _
    have hnd : OM.Nodup := homp.symm.nodup hom0nd
    exact (List.Pairwise.and hle hnd).imp fun h => Nat.lt_of_le_of_ne h.1 h.2
  have hommem : ∀ x ∈ OM, 0 ≤ x ∧ x < 0 + full.count skip_value := fun x hx =>
    ⟨Nat.zero_le x, by simpa using hom0mem x (homp.subset hx)⟩
  obtain ⟨hkl, hkc, hku, hksub⟩ :=
    fillLoop_spec skip_value full OM 0 homsorted hommem (by omega)
  rw [homlen] at hkl hkc
  have hres : FillSubset full skip_value num_skip subset =
      fillLoop skip_value full OM 0 := by
    have hdef : FillSubset full skip_value num_skip subset =
        (fillLoop skip_value full OM 0).take subset.length ++
          subset.drop (fillLoop skip_value full OM 0).length := by
      rw [hOM, hom0, hsh]
      rfl
    rw [hdef]
    have ht : (fillLoop skip_value full OM 0).take subset.length =
        fillLoop skip_value full OM 0 := by
      apply List.take_of_length_le
      omega
    have hd : subset.drop (fillLoop skip_value full OM 0).length = [] := by
      apply List.drop_eq_nil_of_le
      omega
    rw [ht, hd, List.append_nil]
  rw [hres]
  exact ⟨hkc, hku, hksub⟩

/-- Witness for C1 on `full = [0, 1, 0, 2, 0, 1, 0]` (the spec's
`[a, b, a, c, a, b, a]` scenario), `skip_value = 0`, `num_skip = 2`,
with a 5-element output buffer. -/
theorem FillSubset_spec_witness :
    (2 ≤ List.count 0 [0, 1, 0, 2, 0, 1, 0] ∧
      ([9, 9, 9, 9, 9] : List Nat).length = ([0, 1, 0, 2, 0, 1, 0] : List Nat).length - 2 ∧
      ([0, 1, 0, 2, 0, 1, 0] : List Nat).length < 2 ^ 32) ∧
    (FillSubset [0, 1, 0, 2, 0, 1, 0] 0 2 [9, 9, 9, 9, 9]).count 0 =
        List.count 0 [0, 1, 0, 2, 0, 1, 0] - 2 ∧
    (∀ u, u ≠ 0 → (FillSubset [0, 1, 0, 2, 0, 1, 0] 0 2 [9, 9, 9, 9, 9]).count u =
        List.count u [0, 1, 0, 2, 0, 1, 0]) ∧
    (FillSubset [0, 1, 0, 2, 0, 1, 0] 0 2 [9, 9, 9, 9, 9]).Sublist [0, 1, 0, 2, 0, 1, 0] :=
  ⟨⟨by decide, by decide, by decide⟩,
    (FillSubset_spec [0, 1, 0, 2, 0, 1, 0] 0 2 [9, 9, 9, 9, 9] (by decide) (by decide)
      (by decide)).1,
    (FillSubset_spec [0, 1, 0, 2, 0, 1, 0] 0 2 [9, 9, 9, 9, 9] (by decide) (by decide)
      (by decide)).2.1,
    (FillSubset_spec [0, 1, 0, 2, 0, 1, 0] 0 2 [9, 9, 9, 9, 9] (by decide) (by decide)
      (by decide)).2.2⟩

/-! ## SampleUntilStable lemmas (claims C3, C4) -/

/-- With the assertion enabled, the evaluation loop can only return `ok`
with a nonzero estimate, provided the estimate it starts from is nonzero
(the rounds-exhausted exit returns the carried estimate). -/
theorem susLoop_ok_ne_zero (q : Frac) (p : Params) (d : Nat → Nat) :
    ∀ (fuel spe cur : Nat) (samples : List Nat) (est : Nat) (r : Nat × Nat),
      est ≠ 0 → susLoop true q p d fuel spe cur samples est = .ok r → r.1 ≠ 0 := by
  intro fuel
  induction fuel with
  | zero =>
      intro spe cur samples est r hest heq
      simp only [susLoop] at heq
      cases heq
      exact hest
  | succ f ih =>
      intro spe cur samples est r hest heq
      simp only [susLoop] at heq
      generalize hE : (if p.min_mode_samples ≤
          (samples ++ List.map (fun j => d (cur + j) % 2 ^ 64) (List.range spe)).length then
          Mode (samples ++ List.map (fun j => d (cur + j) % 2 ^ 64) (List.range spe))
        else
          Median (samples ++ List.map (fun j => d (cur + j) % 2 ^ 64) (List.range spe))) =
        E at heq
      by_cases hz : E = 0
      · rw [if_pos (by simp [hz])] at heq
        cases heq
      · rw [if_neg (by simp [hz])] at heq
        split at heq
        · cases heq
          exact hz
        · exact ih _ _ _ _ r hz heq

/-- With the assertion enabled and at least one evaluation round, the loop
never returns `ok 0` regardless of the seed estimate. -/
theorem susLoop_pos_fuel_ne_zero (q : Frac) (p : Params) (d : Nat → Nat)
    (f spe cur : Nat) (samples : List Nat) (est : Nat) (r : Nat × Nat)
    (heq : susLoop true q p d (f + 1) spe cur samples est = .ok r) : r.1 ≠ 0 := by
  simp only [susLoop] at heq
  generalize hE : (if p.min_mode_samples ≤
      (samples ++ List.map (fun j => d (cur + j) % 2 ^ 64) (List.range spe)).length then
      Mode (samples ++ List.map (fun j => d (cur + j) % 2 ^ 64) (List.range spe))
    else
      Median (samples ++ List.map (fun j => d (cur + j) % 2 ^ 64) (List.range spe))) =
    E at heq
  by_cases hz : E = 0
  · rw [if_pos (by simp [hz])] at heq
    cases heq
  · rw [if_neg (by simp [hz])] at heq
    split at heq
    · cases heq
      exact hz
    · exact susLoop_ok_ne_zero q p d f _ _ _ _ r hz heq

/-- With the assertion disabled, the evaluation loop always terminates
normally (`ok`): no other exit exists. -/
theorem susLoop_false_ok (q : Frac) (p : Params) (d : Nat → Nat) :
    ∀ (fuel spe cur : Nat) (samples : List Nat) (est : Nat),
      ∃ r, susLoop false q p d fuel spe cur samples est = .ok r := by
  intro fuel
  induction fuel with
  | zero => intro spe cur samples est; exact ⟨(est, cur), rfl⟩
  | succ f ih =>
      intro spe cur samples est
      simp only [susLoop]
      generalize (if p.min_mode_samples ≤
          (samples ++ List.map (fun j => d (cur + j) % 2 ^ 64) (List.range spe)).length then
          Mode (samples ++ List.map (fun j => d (cur + j) % 2 ^ 64) (List.range spe))
        else
          Median (samples ++ List.map (fun j => d (cur + j) % 2 ^ 64) (List.range spe))) =
        E
      rw [if_neg (by simp)]
      split
      · exact ⟨_, rfl⟩
      · exact ih _ _ _ _

theorem SampleUntilStable_false_ok (q : Frac) (p : Params) (d : Nat → Nat) (cur : Nat) :
    ∃ r, SampleUntilStable false q p d cur = .ok r := by
  unfold SampleUntilStable
  exact susLoop_false_ok q p d p.max_evals _ _ _ _

/-! ## Claim theorems: C3, C4 -/

/-- C3, counterexample: a closure whose every timed delta is 0, with
`max_evals = 1`.  The first sample budget yields the central estimate 0
(the median of `[0, 0]`), and the sampler neither returns a nonzero
estimate nor continues sampling: it aborts through the `est != 0`
assertion (modelled per spec §7). -/
theorem SampleUntilStable_zero_aborts_cex :
    SampleUntilStable true (⟨1, 100⟩ : Frac) ⟨1000, 1, 27, 1, ⟨1, 100⟩, 1024, 2, 0⟩
      (fun _ => 0) 0 = Except.error () := by
  rfl

/-- C3, amended: with the zero-estimate check modelled as the assertion the
specification describes, `sample_until_stable` never returns a zero central
estimate for any tolerance, parameter record with `max_evals ≥ 1`, and
delta stream: a budget that yields a zero estimate aborts instead of
returning it (it does not continue sampling).  With `max_evals = 0` the
unchecked initial seed measurement would be returned as is. -/
theorem SampleUntilStable_never_zero (q : Frac) (p : Params) (d : Nat → Nat)
    (cur : Nat) (r : Nat × Nat) (hme : 1 ≤ p.max_evals)
    (heq : SampleUntilStable true q p d cur = .ok r) : r.1 ≠ 0 := by
  unfold SampleUntilStable at heq
  obtain ⟨f, hf⟩ : ∃ f, p.max_evals = f + 1 := ⟨p.max_evals - 1, by omega⟩
  rw [hf] at heq
  exact susLoop_pos_fuel_ne_zero q p d f _ _ _ _ r heq

/-- Witness for C3 (amended): constant nonzero deltas with `max_evals = 1`
converge in the first round to the nonzero estimate 1. -/
theorem SampleUntilStable_never_zero_witness :
    1 ≤ (⟨1, 1, 27, 1, ⟨1, 1⟩, 1024, 2, 0⟩ : Params).max_evals ∧
    SampleUntilStable true ⟨1, 1⟩ ⟨1, 1, 27, 1, ⟨1, 1⟩, 1024, 2, 0⟩ (fun _ => 1) 0 =
      Except.ok (1, 2) ∧
    ((1, 2) : Nat × Nat).1 ≠ 0 :=
  ⟨by decide, by decide,
    SampleUntilStable_never_zero ⟨1, 1⟩ ⟨1, 1, 27, 1, ⟨1, 1⟩, 1024, 2, 0⟩ (fun _ => 1) 0 (1, 2)
      (by decide) (by decide)⟩

theorem flatten_replicate_nil : ∀ k : Nat, (List.replicate k ([] : List Nat)).flatten = [] := by
  intro k
  induction k with
  | zero => rfl
  | succ n ih => simp [List.replicate_succ, ih]

/-- C4, counterexample: with `precision_divisor = 1` and an empty inputs
list, `min_duration` stays `2^64 - 1` and `num_skip` computes to
`(1 + 2^64 - 2) % 2^64 / (2^64 - 1) = 1`, so the call proceeds past the
early return; `full` is empty and the subset buffer size
`full.size() - num_skip` wraps to `2^64 - 1`, whose allocation must throw
`length_error` — the call does not return 0 (and writes nothing). -/
theorem Measure_empty_pd1_cex :
    Measure false ⟨1, 1, 27, 1, ⟨1, 100⟩, 1, 2, 0⟩ (fun _ => 0) [] =
      Except.error () := by
  decide

/-- C4, amended: a `measure` call with an empty inputs list writes no
`results` entry and returns 0, for every timing behaviour and every
parameter record whose `precision_divisor` is not ≡ 1 (mod 2^64): with an
empty unique list `NumSkip` folds over nothing, `min_duration` stays
`2^64 - 1`, and `num_skip` is 0, so the call takes the early return.  (With
`precision_divisor` ≡ 1 the call is instead rejected by the `length_error`
of the wrapped subset-buffer allocation, still writing nothing.)  The
checks flag is false: per spec §7 the empty-input assertion exists in
debug mode only, and the release-mode rejection is the early return. -/
theorem Measure_empty_inputs (p : Params) (d : Nat → Nat)
    (hpd : p.precision_divisor % 2 ^ 64 ≠ 1) :
    Measure false p d [] = .ok (0, [], none) := by
  have hunique : UniqueInputs ([] : List Nat) = [] := rfl
  have hns : NumSkip false p d [] 0 = .ok
      (((p.precision_divisor % 2 ^ 64 + (2 ^ 64 - 1) - 1) % 2 ^ 64) / (2 ^ 64 - 1),
       0) := by
    have hloop : numSkipLoop false p d [] 0 (2 ^ 64 - 1) = .ok (2 ^ 64 - 1, 0) := rfl
    simp only [NumSkip, hloop]
    rw [if_neg (by norm_num)]
  have hns0 : ((p.precision_divisor % 2 ^ 64 + (2 ^ 64 - 1) - 1) % 2 ^ 64) /
      (2 ^ 64 - 1) = 0 := by
    have hm : p.precision_divisor % 2 ^ 64 < 2 ^ 64 :=
      Nat.mod_lt _ (by norm_num)
    have h264 : (2 : Nat) ^ 64 = 18446744073709551616 := by norm_num
    rw [h264] at hm ⊢
    rw [h264] at hpd
    omega
  simp only [Measure, hunique, hns]
  rw [if_neg (by simp)]
  split
  · rfl
  · next h => exact absurd hns0 h

/-- Witness for C4 (amended) at a concrete parameter record with the
default `precision_divisor = 1024`. -/
theorem Measure_empty_inputs_witness :
    (⟨1, 1, 27, 1, ⟨1, 100⟩, 1024, 2, 0⟩ : Params).precision_divisor % 2 ^ 64 ≠ 1 ∧
    Measure false ⟨1, 1, 27, 1, ⟨1, 100⟩, 1024, 2, 0⟩ (fun _ => 0) [] =
      .ok (0, [], none) :=
  ⟨by decide,
    Measure_empty_inputs ⟨1, 1, 27, 1, ⟨1, 100⟩, 1024, 2, 0⟩ (fun _ => 0) (by decide)⟩

/-! ## Measure loop lemmas (claim C10) -/

/-- If the per-unique-input loop of Measure ends with the total-inversion
instrumentation set to `i`, then the loop returned 0, the written entries
are exactly those accumulated before the failing iteration (none are
removed or cleared), and their inputs are the accumulator's inputs
followed by the processed prefix of the remaining unique inputs. -/
theorem measureLoop_fail (checks : Bool) (p : Params) (d : Nat → Nat)
    (full : List Nat) (uq num_skip total overhead overhead_skip : Nat) :
    ∀ (us : List Nat) (cur : Nat) (subset : List Nat) (acc : List MEntry)
      (r : Nat) (ws : List MEntry) (i : Nat),
      measureLoop checks p d full uq num_skip total overhead overhead_skip
          us cur subset acc = .ok (r, ws, some i) →
      r = 0 ∧ i = ws.length ∧ acc.length ≤ ws.length ∧
        ws.map (fun e => e.input) =
          acc.map (fun e => e.input) ++ us.take (ws.length - acc.length) := by
  intro us
  induction us with
  | nil =>
      intro cur subset acc r ws i heq
      simp only [measureLoop] at heq
      cases heq
  | cons u rest ih =>
      intro cur subset acc r ws i heq
      simp only [measureLoop] at heq
      cases hsus : SampleUntilStable checks p.target_rel_mad p d cur with
      | error e => rw [hsus] at heq; cases heq
      | ok tc =>
          rw [hsus] at heq
          dsimp only at heq
          split at heq
          · cases heq
            refine ⟨rfl, rfl, Nat.le_refl _, ?_⟩
            simp
          · obtain ⟨h0, hi, hle, hmap⟩ := ih _ _ _ r ws i heq
            have hacc : (acc ++ [(⟨u, wsub (wsub total overhead)
                (wsub tc.1 overhead_skip)⟩ : MEntry)]).length = acc.length + 1 := by
              simp
            rw [hacc] at hle
            refine ⟨h0, hi, by omega, ?_⟩
            rw [hmap]
            have htake : (u :: rest).take (ws.length - acc.length) =
                u :: rest.take (ws.length - (acc.length + 1)) := by
              have h1 : ws.length - acc.length = (ws.length - (acc.length + 1)) + 1 := by
                omega
              rw [h1, List.take_succ_cons]
            rw [htake]
            simp

/-! ## Claim theorems: C10, C9 -/

/-- C10: failure of `measure` is not atomic with respect to the results
array.  Whenever a run ends with the total-inversion check
(`total < total_skip`) firing at the `i`-th unique input with `i > 0`, the
call returns 0 after having written `results[0] .. results[i-1]` — the
returned write list still holds exactly those `i` entries, whose inputs
are the first `i` unique inputs, and nothing restores or clears them. -/
theorem Measure_partial_fail (checks : Bool) (p : Params) (d : Nat → Nat)
    (inputs : List Nat) (r : Nat) (ws : List MEntry) (i : Nat)
    (heq : Measure checks p d inputs = .ok (r, ws, some i)) (hpos : 0 < i) :
    r = 0 ∧ ws.length = i ∧
      ws.map (fun e => e.input) = (UniqueInputs inputs).take i := by
  unfold Measure at heq
  split at heq
  · cases heq
  · dsimp only at heq
    cases hns : NumSkip checks p d (UniqueInputs inputs) 0 with
    | error e => rw [hns] at heq; cases heq
    | ok nc =>
        rw [hns] at heq
        dsimp only at heq
        split at heq
        · cases heq
        · split at heq
          · cases heq
          · cases hoc : SampleUntilStable checks ⟨0, 1⟩ p d nc.2 with
            | error e => rw [hoc] at heq; cases heq
            | ok oc =>
                rw [hoc] at heq
                dsimp only at heq
                cases hosc : SampleUntilStable checks ⟨0, 1⟩ p d oc.2 with
                | error e => rw [hosc] at heq; cases heq
                | ok osc =>
                    rw [hosc] at heq
                    dsimp only at heq
                    split at heq
                    · cases heq
                    · cases htc : SampleUntilStable checks p.target_rel_mad p d osc.2 with
                      | error e => rw [htc] at heq; cases heq
                      | ok tc =>
                          rw [htc] at heq
                          dsimp only at heq
                          obtain ⟨h0, hi, _, hmap⟩ := measureLoop_fail checks p d
                            (ReplicateInputs inputs (UniqueInputs inputs).length nc.1 p)
                            (UniqueInputs inputs).length nc.1 tc.1 oc.1 osc.1
                            (UniqueInputs inputs) tc.2 _ [] r ws i heq
                          refine ⟨h0, hi.symm, ?_⟩
                          rw [hmap, hi]
                          simp

set_option maxRecDepth 20000 in
/-- Witness for C10: a concrete two-input run in which the first unique
input is measured successfully and the total-inversion check fires at the
second (`total = 100 < total_skip = 200`), so exactly one entry was
written and is still reported. -/
theorem Measure_partial_fail_witness :
    Measure false ⟨1, 1, 100, 1, ⟨1, 1⟩, 10, 2, 0⟩
        (fun k => [10, 10, 10, 10, 5, 5, 4, 4, 100, 100, 90, 90, 200, 200].getD k 0)
        [1, 2] = .ok (0, [⟨1, 9⟩], some 1) ∧ 0 < 1 ∧
      ((0 : Nat) = 0 ∧ ([(⟨1, 9⟩ : MEntry)] : List MEntry).length = 1 ∧
        ([(⟨1, 9⟩ : MEntry)] : List MEntry).map (fun e => e.input) =
          (UniqueInputs [1, 2]).take 1) :=
  ⟨by decide, by decide,
    Measure_partial_fail false ⟨1, 1, 100, 1, ⟨1, 1⟩, 10, 2, 0⟩
      (fun k => [10, 10, 10, 10, 5, 5, 4, 4, 100, 100, 90, 90, 200, 200].getD k 0)
      [1, 2] 0 [⟨1, 9⟩] 1 (by decide) (by decide)⟩

/-- C9: two calls of `replicate_inputs` with the same arguments produce
element-for-element identical output sequences.  In the pure embedding the
substance of the claim is that the permutation needs no ambient state: the
generator is a function-local `std::mt19937` default-constructed with the
fixed seed 5489, which the second conjunct makes explicit. -/
theorem ReplicateInputs_deterministic (inputs : List Nat)
    (num_unique num_skip : Nat) (p : Params) :
    ReplicateInputs inputs num_unique num_skip p =
        ReplicateInputs inputs num_unique num_skip p ∧
      ReplicateInputs inputs num_unique num_skip p =
        replicateInputsSeeded 5489 inputs num_unique num_skip p :=
  ⟨rfl, rfl⟩

end Nanobench
